import Mathlib

/-!
Verification development for the Wasteland zombie-survival game core.

The embedding below translates the simulation modules of the game into Lean:

* `PState` / `PEvent` / `pstep` — the combat and view state of the player and the
  operations on it (`Player` class: look handling, `handleShooting`/`shoot`,
  `reload`, `addAmmo`, `takeDamage`, together with the orchestrator
  health-pack consumption and contact-damage tick from `GameApp.update`).
  JavaScript numbers are modelled as `ℚ` (ammo counters, which only ever hold
  integers, as `ℤ`).
* `ZState` / `resolveOneBullet` / `bulletPass` — the per-tick bullet–hostile
  and bullet–world resolution pass of `GameApp.update`, with ray-vs-mesh
  intersection results supplied as boolean oracles.
* `Chunk` / `Env` / `createChunk` / `disposeChunk` / `envUpdate` — the
  chunk-streaming `Environment` with its aggregate obstacle/health/ammo lists,
  and the pack-consumption splices of `GameApp.update`.
* `ZMState` / `zmTick` and `SpawnEnv` / `spawnZombie` — the `ZombieManager`
  spawn timer and the spawn-placement probe.
* `Json` / `StoredRaw` / `loadLayout` / `saveLayout` — the control-layout
  persistence of `MobileControlsManager`, with JavaScript exceptions made
  explicit in an `Except` error monad.
-/

/-- Player combat/view state, from the `Player` class of the game source:
health, magazine and reserve ammo, the reloading flag, the last-shot
timestamp, and the camera pitch (`cameraRoot.rotation.x`).  The game-over
flag lives on the orchestrator (`GameApp`) and is threaded here because the
contact-damage tick consults it. -/
structure PState where
  health : ℚ
  currentAmmo : ℤ
  reserveAmmo : ℤ
  isReloading : Bool
  lastShotTime : ℚ
  pitch : ℚ
  gameOver : Bool
deriving DecidableEq

/-- Fixed magazine capacity (`maxMagAmmo = 20` in `Player`). -/
def maxMagAmmo : ℤ := 20

/-- Fire-rate gate in seconds (`fireRate = 0.15` in `Player`). -/
def fireRate : ℚ := 15 / 100

/-- Initial player state: health 100, magazine 20, reserve 60, pitch 0. -/
def initP : PState :=
  { health := 100, currentAmmo := 20, reserveAmmo := 60, isReloading := false,
    lastShotTime := 0, pitch := 0, gameOver := false }

/-- The operations that touch the player state:

* `look my` — a pointer-move with vertical delta `my` (`Player.setupInputs`);
* `fire now` — a shooting opportunity at wall-clock time `now`
  (`Player.handleShooting` with the trigger held; a successful attempt runs
  `Player.shoot`);
* `reloadKey` — the `r`-key handler calling `Player.reload`;
* `reloadDone` — the reload `setTimeout` callback firing;
* `ammoPickup` — `GameApp.update` consuming an ammo pack (`addAmmo(20)`);
* `healthPickup` — `GameApp.update` consuming a health pack;
* `contact dt` — one zombie-contact damage tick (`takeDamage(10 * dt)` plus
  the game-over transition of the orchestrator). -/
inductive PEvent where
  | look (movementY : ℚ)
  | fire (now : ℚ)
  | reloadKey
  | reloadDone
  | ammoPickup
  | healthPickup
  | contact (dt : ℚ)
deriving DecidableEq

/-- One step of the player state machine.  Each branch is a direct
translation of the corresponding handler in the source:

* look: `newX = rotation.x + movementY * 0.002`, applied only when
  `newX > -1.5 && newX < 1.5`;
* fire: guarded by `!isReloading && currentAmmo > 0 &&
  now - lastShotTime > fireRate`; `shoot` decrements the magazine, applies
  the fixed recoil `rotation.x -= 0.02`, and records the shot time;
* reloadKey: returns early when already reloading, magazine full, or
  reserve empty, otherwise sets the reloading flag;
* reloadDone: moves `min(maxMagAmmo - currentAmmo, reserveAmmo)` rounds from
  reserve into the magazine and clears the flag (the source schedules exactly
  one callback per accepted reload trigger, during which the flag stays set;
  a `reloadDone` with the flag clear never happens in a source trace and is
  modelled as a no-op);
* ammoPickup: `reserveAmmo += 20`;
* healthPickup: `health = Math.min(100, health + 25)`;
* contact: `health -= 10 * dt`, transitioning to game-over iff the result is
  `≤ 0`; the orchestrator only runs its update loop while not game-over. -/
def pstep (s : PState) : PEvent → PState
  | .look my =>
      let newX := s.pitch + my * (2 / 1000)
      if -(3 / 2) < newX ∧ newX < 3 / 2 then { s with pitch := newX } else s
  | .fire now =>
      if s.isReloading = false ∧ 0 < s.currentAmmo ∧ fireRate < now - s.lastShotTime then
        { s with currentAmmo := s.currentAmmo - 1, pitch := s.pitch - 2 / 100,
                 lastShotTime := now }
      else s
  | .reloadKey =>
      if s.isReloading = true ∨ s.currentAmmo = maxMagAmmo ∨ s.reserveAmmo ≤ 0 then s
      else { s with isReloading := true }
  | .reloadDone =>
      if s.isReloading = true then
        let needed := maxMagAmmo - s.currentAmmo
        let toAdd := min needed s.reserveAmmo
        { s with currentAmmo := s.currentAmmo + toAdd,
                 reserveAmmo := s.reserveAmmo - toAdd, isReloading := false }
      else s
  | .ammoPickup => { s with reserveAmmo := s.reserveAmmo + 20 }
  | .healthPickup => { s with health := min 100 (s.health + 25) }
  | .contact dt =>
      if s.gameOver = true then s
      else
        let h := s.health - 10 * dt
        { s with health := h, gameOver := if h ≤ 0 then true else false }

/-- Run a sequence of player events from a starting state. -/
def prun (evs : List PEvent) (s : PState) : PState :=
  evs.foldl pstep s

/-- The ammo invariant claimed by the spec: the magazine holds between 0 and
`maxMagAmmo` rounds and the reserve is never negative. -/
def AmmoInv (s : PState) : Prop :=
  0 ≤ s.currentAmmo ∧ s.currentAmmo ≤ maxMagAmmo ∧ 0 ≤ s.reserveAmmo

theorem pstep_ammoInv (s : PState) (e : PEvent) (h : AmmoInv s) : AmmoInv (pstep s e) := by
  obtain ⟨h0, h1, h2⟩ := h
  cases e with
  | look my =>
      simp only [pstep]
      split <;> exact ⟨h0, h1, h2⟩
  | fire now =>
      simp only [pstep]
      split
      · next hc => refine ⟨?_, ?_, ?_⟩ <;> simp only [] <;> omega
      · exact ⟨h0, h1, h2⟩
  | reloadKey =>
      simp only [pstep]
      split <;> exact ⟨h0, h1, h2⟩
  | reloadDone =>
      simp only [pstep]
      split
      · refine ⟨?_, ?_, ?_⟩ <;> simp only [] <;> omega
      · exact ⟨h0, h1, h2⟩
  | ammoPickup => exact ⟨h0, h1, by simpa [pstep] using by omega⟩
  | healthPickup => exact ⟨h0, h1, h2⟩
  | contact dt =>
      simp only [pstep]
      split
      · exact ⟨h0, h1, h2⟩
      · exact ⟨h0, h1, h2⟩

theorem prun_ammoInv (evs : List PEvent) (s : PState) (h : AmmoInv s) :
    AmmoInv (prun evs s) := by
  induction evs generalizing s with
  | nil => exact h
  | cons e rest ih => exact ih (pstep s e) (pstep_ammoInv s e h)

/-- C6: for every reachable state of the player under any sequence of fire,
reload-completion and ammo-pickup operations (and all the other player
operations), `0 ≤ currentAmmo ≤ maxMagAmmo` and `0 ≤ reserveAmmo` hold;
moreover firing is gated on `currentAmmo > 0` (an attempt with an empty
magazine is a no-op) and a completed reload moves exactly
`min(maxMagAmmo - currentAmmo, reserveAmmo)` rounds from reserve into the
magazine. -/
theorem c6_ammo_invariant :
    (∀ evs : List PEvent, AmmoInv (prun evs initP)) ∧
    (∀ (s : PState) (now : ℚ), ¬ 0 < s.currentAmmo → pstep s (.fire now) = s) ∧
    (∀ s : PState, s.isReloading = true →
      (pstep s .reloadDone).currentAmmo
          = s.currentAmmo + min (maxMagAmmo - s.currentAmmo) s.reserveAmmo ∧
      (pstep s .reloadDone).reserveAmmo
          = s.reserveAmmo - min (maxMagAmmo - s.currentAmmo) s.reserveAmmo) := by
  refine ⟨fun evs => prun_ammoInv evs initP (by norm_num [AmmoInv, initP, maxMagAmmo]), ?_, ?_⟩
  · intro s now hno
    simp only [pstep]
    rw [if_neg]
    rintro ⟨-, hpos, -⟩
    exact hno hpos
  · intro s hrel
    simp only [pstep, hrel, if_pos rfl]
    exact ⟨rfl, rfl⟩

/-- Witness for C6: the invariant holds after a concrete run, a fire attempt
with an empty magazine is a no-op, and a concrete reload completion moves
`min(needed, reserve)` rounds. -/
theorem c6_ammo_invariant_witness :
    AmmoInv (prun [PEvent.fire 1, PEvent.ammoPickup] initP) ∧
    pstep { initP with currentAmmo := 0 } (.fire 1) = { initP with currentAmmo := 0 } ∧
    (pstep { initP with currentAmmo := 5, isReloading := true } .reloadDone).currentAmmo = 20 := by
  refine ⟨c6_ammo_invariant.1 [PEvent.fire 1, PEvent.ammoPickup],
    c6_ammo_invariant.2.1 { initP with currentAmmo := 0 } 1 (by decide), ?_⟩
  have h := (c6_ammo_invariant.2.2 { initP with currentAmmo := 5, isReloading := true } rfl).1
  rw [h]
  decide

/-- A burst of `n` shooting opportunities one second apart starting at `t0`
(one second comfortably exceeds the 0.15 s fire-rate gate). -/
def fireBurst (t0 : ℚ) (n : ℕ) : List PEvent :=
  (List.range n).map (fun k => PEvent.fire (t0 + (k : ℚ)))

/-- A concrete event trace: one look event of vertical delta -745 moves the
pitch to -1.49 (inside the clamp window), then the starting magazine of 20
rounds is fired, each shot applying the unclamped -0.02 recoil.  Every step
respects the source guards, so the resulting state is reachable. -/
def c3trace : List PEvent :=
  PEvent.look (-745) :: fireBurst 1 20

set_option maxHeartbeats 1000000 in
set_option maxRecDepth 4000 in
/-- C3 counterexample: the camera pitch does NOT stay within ±1.5 radians.
The look handler clamps its own updates to the open interval (-1.5, 1.5),
but `Player.shoot` applies the recoil `cameraRoot.rotation.x -= 0.02`
without any clamp, so a reachable look-then-fire sequence (one look to
-1.49, then emptying the 20-round magazine) drives the pitch to -1.89,
outside the claimed range — and every further shot pushes it lower still. -/
theorem c3_counterexample :
    (prun c3trace initP).pitch = -(189 / 100) ∧ (prun c3trace initP).pitch < -(3 / 2) := by
  have h : (prun c3trace initP).pitch = -(189 / 100) := by
    norm_num [prun, c3trace, fireBurst, pstep, initP, fireRate, maxMagAmmo,
      List.range_succ, List.foldl]
  exact ⟨h, by rw [h]; norm_num⟩

/-- C3 amended: a look event keeps the camera pitch strictly inside
(-1.5, 1.5) whenever it is already inside (the handler only writes the new
pitch when the result lies in that open interval), but the recoil applied by
a successful fire is unclamped: it decreases the pitch by exactly 0.02, so
firing sequences can drive the pitch below -1.5 without bound. -/
theorem c3_amended :
    (∀ (s : PState) (my : ℚ), -(3 / 2) < s.pitch → s.pitch < 3 / 2 →
      -(3 / 2) < (pstep s (.look my)).pitch ∧ (pstep s (.look my)).pitch < 3 / 2) ∧
    (∀ (s : PState) (now : ℚ),
      s.isReloading = false → 0 < s.currentAmmo → fireRate < now - s.lastShotTime →
      (pstep s (.fire now)).pitch = s.pitch - 2 / 100) := by
  constructor
  · intro s my hlo hhi
    simp only [pstep]
    split
    · next hc => exact ⟨hc.1, hc.2⟩
    · exact ⟨hlo, hhi⟩
  · intro s now h1 h2 h3
    simp only [pstep, if_pos (And.intro h1 (And.intro h2 h3))]

/-- Witness for C3 amended, at a concrete in-range state and a concrete
fireable state. -/
theorem c3_amended_witness :
    (-(3 / 2) < (pstep initP (.look 100)).pitch ∧ (pstep initP (.look 100)).pitch < 3 / 2) ∧
    (pstep initP (.fire 1)).pitch = initP.pitch - 2 / 100 := by
  exact ⟨c3_amended.1 initP 100 (by norm_num [initP]) (by norm_num [initP]),
    c3_amended.2 initP 1 rfl (by norm_num [initP]) (by norm_num [initP, fireRate])⟩

/-- A concrete trace of zombie-contact damage ticks: 34 ticks of `dt = 0.3`
seconds each, i.e. 3 damage per tick from the starting health of 100. -/
def c9trace : List PEvent :=
  List.replicate 34 (PEvent.contact (3 / 10))

set_option maxHeartbeats 1000000 in
set_option maxRecDepth 4000 in
/-- C9 counterexample: player health DOES become negative.  `takeDamage`
subtracts without clamping, so after 33 contact ticks of 3 damage the health
is 1, and the 34th tick leaves it at -2 < 0 (and transitions to game-over). -/
theorem c9_counterexample :
    (prun c9trace initP).health = -2 ∧ (prun c9trace initP).health < 0 ∧
    (prun c9trace initP).gameOver = true := by
  have h : prun c9trace initP
      = { health := -2, currentAmmo := 20, reserveAmmo := 60, isReloading := false,
          lastShotTime := 0, pitch := 0, gameOver := true } := by
    norm_num [prun, c9trace, pstep, initP, List.replicate, List.foldl]
  rw [h]
  norm_num

/-- C9 amended: health can drop below 0 on the lethal contact tick
(`takeDamage` subtracts `10 * dt` without clamping and the orchestrator
transitions to game-over exactly when the result is ≤ 0), but in every
reachable state that is not game-over the health is strictly positive; and
consuming a health pack sets health to `min(health + 25, 100)`, so pickups
never raise it above 100. -/
theorem c9_amended :
    (∀ evs : List PEvent, (prun evs initP).gameOver = false → 0 < (prun evs initP).health) ∧
    (∀ s : PState, (pstep s .healthPickup).health = min 100 (s.health + 25) ∧
      (pstep s .healthPickup).health ≤ 100) := by
  constructor
  · have key : ∀ (evs : List PEvent) (s : PState),
        (s.gameOver = false → 0 < s.health) →
        ((prun evs s).gameOver = false → 0 < (prun evs s).health) := by
      intro evs
      induction evs with
      | nil => intro s h; exact h
      | cons e rest ih =>
          intro s h
          refine ih (pstep s e) ?_
          cases e with
          | look my => simp only [pstep]; split <;> exact h
          | fire now => simp only [pstep]; split <;> exact h
          | reloadKey => simp only [pstep]; split <;> exact h
          | reloadDone => simp only [pstep]; split <;> exact h
          | ammoPickup => exact h
          | healthPickup =>
              intro hgo
              have hs := h hgo
              simp only [pstep] at hgo ⊢
              have : (0 : ℚ) < s.health + 25 := by linarith
              simp only [lt_min_iff]
              exact ⟨by norm_num, this⟩
          | contact dt =>
              simp only [pstep]
              split
              · exact h
              · intro hgo
                simp only [] at hgo ⊢
                by_cases hc : s.health - 10 * dt ≤ 0
                · rw [if_pos hc] at hgo
                  exact absurd hgo (by simp)
                · exact lt_of_not_le hc
    intro evs
    exact key evs initP (fun _ => by norm_num [initP])
  · intro s
    exact ⟨rfl, min_le_left _ _⟩

/-- Witness for C9 amended: after a concrete non-lethal trace the game is
not over and health is positive, and a concrete health pickup caps at 100. -/
theorem c9_amended_witness :
    ((prun [PEvent.contact (3 / 10)] initP).gameOver = false →
      0 < (prun [PEvent.contact (3 / 10)] initP).health) ∧
    (prun [PEvent.contact (3 / 10)] initP).gameOver = false ∧
    (pstep initP .healthPickup).health = min 100 (initP.health + 25) := by
  refine ⟨c9_amended.1 [PEvent.contact (3 / 10)], ?_, (c9_amended.2 initP).1⟩
  norm_num [prun, pstep, initP, List.foldl]

/-- Hostile damage state, from the `Zombie` class: remaining health and the
`isDeadFlag` set by `die()`. -/
structure ZState where
  health : ℤ
  deadFlag : Bool
deriving DecidableEq, Inhabited

/-- Source `Zombie.takeDamage(amount)`: subtract the damage and call `die()`
(setting the dead flag) when the resulting health is ≤ 0.  The flag is never
cleared once set. -/
def zTakeDamage (z : ZState) (amount : ℤ) : ZState :=
  let h := z.health - amount
  { health := h, deadFlag := z.deadFlag || (if h ≤ 0 then true else false) }

/-- The inner hostile scan of `GameApp.update`: the loop
`for (let j = zombies.length - 1; j >= 0; j--)` breaks at the FIRST hit it
encounters, i.e. at the hit with the greatest index.  `hit j` is the oracle
for `ray.intersectsMesh(zombies[j].mesh).hit` for the swept
segment. -/
def findLastHit (hit : ℕ → Bool) : ℕ → Option ℕ
  | 0 => none
  | n + 1 => if hit n then some n else findLastHit hit n

/-- Result of resolving one projectile in `GameApp.update`:
the updated hostile list, whether the projectile was marked dead (and
spliced out), whether a hostile was hit, whether a world hit was registered,
and the score increment. -/
structure BulletOutcome where
  zombies : List ZState
  bulletDead : Bool
  hitZombie : Bool
  hitWorld : Bool
  scoreDelta : ℕ
deriving DecidableEq

/-- The per-projectile resolution of `GameApp.update` (the body of the
bullet loop): scan the hostile list from the last index downwards; on the
first hit apply `takeDamage(1)`, mark the projectile dead, increment the
score iff the hostile is dead afterwards, and skip the world test entirely
(it sits in the `else` branch); otherwise test the segment against the
ground meshes and obstacles (collapsed into the single oracle `hitWorld`)
and mark the projectile dead on a world hit. -/
def resolveOneBullet (hit : ℕ → Bool) (hitWorld : Bool) (zs : List ZState) : BulletOutcome :=
  match findLastHit hit zs.length with
  | some j =>
      let z2 := zTakeDamage (zs.getD j default) 1
      { zombies := zs.set j z2, bulletDead := true, hitZombie := true, hitWorld := false,
        scoreDelta := if z2.deadFlag then 1 else 0 }
  | none =>
      { zombies := zs, bulletDead := hitWorld, hitZombie := false, hitWorld := hitWorld,
        scoreDelta := 0 }

/-- The full bullet pass of `GameApp.update` over an indexed bullet list
(`isDead` flags), iterating `i` from the last bullet downwards (so the list
tail is processed first), skipping already-dead bullets (which stay in the
list), and splicing out bullets that died this pass.  `hit i j` and
`hitW i` are the intersection oracles for bullet `i`. -/
def bulletPassAux (hit : ℕ → ℕ → Bool) (hitW : ℕ → Bool) :
    List (ℕ × Bool) → List ZState → ℕ → List (ℕ × Bool) × List ZState × ℕ
  | [], zs, sc => ([], zs, sc)
  | (i, isDead) :: rest, zs, sc =>
      let r := bulletPassAux hit hitW rest zs sc
      if isDead then ((i, isDead) :: r.1, r.2.1, r.2.2)
      else
        let out := resolveOneBullet (hit i) (hitW i) r.2.1
        if out.bulletDead then (r.1, out.zombies, r.2.2 + out.scoreDelta)
        else ((i, false) :: r.1, out.zombies, r.2.2 + out.scoreDelta)

/-- Run the bullet pass on a list of bullet `isDead` flags, a hostile list
and a starting score. -/
def bulletPass (hit : ℕ → ℕ → Bool) (hitW : ℕ → Bool) (bullets : List Bool)
    (zs : List ZState) (score : ℕ) : List (ℕ × Bool) × List ZState × ℕ :=
  bulletPassAux hit hitW bullets.enum zs score

/-- C1 counterexample: with one live projectile whose swept segment overlaps
BOTH of two live hostiles (each at 3 health), the earliest-index hostile
(index 0) receives no damage at all — the inner loop iterates from the end
of the list, so the hostile at index 1 takes the single point of damage.
The clause "earliest-index hostile wins" of the claim is therefore false on the code. -/
theorem c1_counterexample :
    (bulletPass (fun _ _ => true) (fun _ => false) [false]
        [⟨3, false⟩, ⟨3, false⟩] 0).2.1 = [⟨3, false⟩, ⟨2, false⟩] ∧
    ((bulletPass (fun _ _ => true) (fun _ => false) [false]
        [⟨3, false⟩, ⟨3, false⟩] 0).2.1.getD 0 default).health = 3 := by
  constructor <;> rfl

/-- Lemma: `findLastHit` returns the greatest index below `n` whose oracle is true. -/
theorem findLastHit_eq_some (hit : ℕ → Bool) (n j : ℕ) (hj : j < n) (hhit : hit j = true)
    (hmax : ∀ k, j < k → k < n → hit k = false) : findLastHit hit n = some j := by
  induction n with
  | zero => omega
  | succ m ih =>
      by_cases hm : hit m = true
      · have : j = m := by
          by_contra hne
          have hjm : j < m := by omega
          have := hmax m hjm (Nat.lt_succ_self m)
          rw [this] at hm
          exact absurd hm (by simp)
        subst this
        simp [findLastHit, hm]
      · have hne : j ≠ m := fun h => hm (h ▸ hhit)
        have hjm : j < m := by omega
        simp only [findLastHit, Bool.not_eq_true] at hm ⊢
        rw [hm]
        simp only [Bool.false_eq_true, if_false]
        exact ih hjm (fun k hk1 hk2 => hmax k hk1 (by omega))

/-- C1 amended: for every live projectile whose swept segment overlaps one
or more hostiles, exactly one hostile — the LATEST-index hostile in hostile
list order (the inner loop iterates from the end of the list, so the
highest-index overlapping hostile wins) — receives exactly 1 damage, the
projectile is marked dead and tested against no further hostiles, score is
incremented iff that hit was lethal, and the projectile does not also
register a world hit in the same tick. -/
theorem c1_amended (hit : ℕ → Bool) (hitW : Bool) (zs : List ZState) (j : ℕ)
    (hj : j < zs.length) (hhit : hit j = true)
    (hmax : ∀ k, j < k → k < zs.length → hit k = false) :
    (resolveOneBullet hit hitW zs).bulletDead = true ∧
    (resolveOneBullet hit hitW zs).hitWorld = false ∧
    (resolveOneBullet hit hitW zs).zombies
        = zs.set j (zTakeDamage (zs.getD j default) 1) ∧
    (∀ k, k ≠ j → (resolveOneBullet hit hitW zs).zombies.getD k default
        = zs.getD k default) ∧
    ((resolveOneBullet hit hitW zs).zombies.getD j default).health
        = (zs.getD j default).health - 1 ∧
    (resolveOneBullet hit hitW zs).scoreDelta
        = (if (zTakeDamage (zs.getD j default) 1).deadFlag then 1 else 0) := by
  have hfind := findLastHit_eq_some hit zs.length j hj hhit hmax
  simp only [resolveOneBullet, hfind]
  refine ⟨trivial, trivial, trivial, ?_, ?_, trivial⟩
  · intro k hk
    rcases Nat.lt_or_ge k zs.length with hlt | hge
    · rw [List.getD_eq_getElem _ _ hlt, List.getD_eq_getElem _ _ (by simpa using hlt)]
      simp [List.getElem_set_ne (Ne.symm hk)]
    · rw [List.getD_eq_default _ _ (by simpa using hge), List.getD_eq_default _ _ hge]
  · rw [List.getD_eq_getElem _ _ (by simpa using hj)]
    simp [List.getElem_set_self, zTakeDamage, List.getD_eq_getElem _ _ hj]

/-- Witness for C1 amended: a single projectile overlapping only the hostile
at index 0 of a one-hostile list. -/
theorem c1_amended_witness :
    ((0 : ℕ) < [(⟨3, false⟩ : ZState)].length) ∧
    (resolveOneBullet (fun k => k == 0) true [⟨3, false⟩]).bulletDead = true ∧
    (resolveOneBullet (fun k => k == 0) true [⟨3, false⟩]).hitWorld = false ∧
    ((resolveOneBullet (fun k => k == 0) true [⟨3, false⟩]).zombies.getD 0 default).health
      = 2 := by
  have h := c1_amended (fun k => k == 0) true [⟨3, false⟩] 0 (by simp) (by simp)
    (fun k hk1 hk2 => by simp only [beq_eq_false_iff_ne, ne_eq]; omega)
  refine ⟨by simp, h.1, h.2.1, ?_⟩
  rw [h.2.2.2.2.1]
  rfl

/-- A world chunk, from the `Chunk` class of the environment source: its
integer grid coordinate and the ids of the obstacle, health-pack and
ammo-pack meshes it owns (meshes are modelled by natural-number ids). -/
structure Chunk where
  key : ℤ × ℤ
  obstacles : List ℕ
  healthPacks : List ℕ
  ammoPacks : List ℕ
deriving DecidableEq

/-- The chunk-streaming `Environment`: the live chunk map (as a list keyed
by grid coordinate) and the aggregate obstacle/health-pack/ammo-pack lists
exposed to the orchestrator. -/
structure Env where
  chunks : List Chunk
  obstacles : List ℕ
  healthPacks : List ℕ
  ammoPacks : List ℕ
deriving DecidableEq

/-- Source `Environment.createChunk`: store the new chunk in the map and push its
contents onto the aggregate lists. -/
def createChunk (e : Env) (c : Chunk) : Env :=
  { chunks := e.chunks ++ [c],
    obstacles := e.obstacles ++ c.obstacles,
    healthPacks := e.healthPacks ++ c.healthPacks,
    ammoPacks := e.ammoPacks ++ c.ammoPacks }

/-- Source `Environment.disposeChunk`: look the chunk up by key; if present, filter
its members out of the aggregate lists and delete it from the map. -/
def disposeChunk (e : Env) (k : ℤ × ℤ) : Env :=
  match e.chunks.find? (fun c => c.key == k) with
  | none => e
  | some c =>
      { chunks := e.chunks.filter (fun c2 => !(c2.key == k)),
        obstacles := e.obstacles.filter (fun m => !(c.obstacles.contains m)),
        healthPacks := e.healthPacks.filter (fun m => !(c.healthPacks.contains m)),
        ammoPacks := e.ammoPacks.filter (fun m => !(c.ammoPacks.contains m)) }

/-- The health-pack consumption of `GameApp.update`: the pack at index `i`
of the AGGREGATE list is disposed and spliced out of that list only — the
own list of the owning chunk is not touched. -/
def consumeHealthPack (e : Env) (i : ℕ) : Env :=
  { e with healthPacks := e.healthPacks.eraseIdx i }

/-- The ammo-pack consumption of `GameApp.update`, likewise splicing only
the aggregate list. -/
def consumeAmmoPack (e : Env) (i : ℕ) : Env :=
  { e with ammoPacks := e.ammoPacks.eraseIdx i }

/-- The aggregate invariant claimed by the spec: each aggregate list holds
exactly the union of the corresponding per-chunk lists. -/
def AggInv (e : Env) : Prop :=
  (∀ m, m ∈ e.obstacles ↔ ∃ c ∈ e.chunks, m ∈ c.obstacles) ∧
  (∀ m, m ∈ e.healthPacks ↔ ∃ c ∈ e.chunks, m ∈ c.healthPacks) ∧
  (∀ m, m ∈ e.ammoPacks ↔ ∃ c ∈ e.chunks, m ∈ c.ammoPacks)

/-- The empty environment (before the initial update run by the constructor). -/
def emptyEnv : Env := { chunks := [], obstacles := [], healthPacks := [], ammoPacks := [] }

/-- C2 counterexample: consuming a pickup breaks the aggregate/union
equality.  Starting from an environment holding one chunk that owns health
pack 5 (where the invariant holds), the consumption step of the orchestrator splices
pack 5 out of the aggregate list but leaves it in the own list of the chunk, so
the aggregate no longer equals the union of the per-chunk lists. -/
theorem c2_counterexample :
    AggInv (createChunk emptyEnv ⟨(0, 0), [], [5], []⟩) ∧
    ¬ AggInv (consumeHealthPack (createChunk emptyEnv ⟨(0, 0), [], [5], []⟩) 0) := by
  constructor
  · refine ⟨?_, ?_, ?_⟩ <;> intro m <;>
      simp [createChunk, emptyEnv]
  · intro h
    have h5 := (h.2.1 5).mpr ⟨⟨(0, 0), [], [5], []⟩, by simp [consumeHealthPack, createChunk, emptyEnv], by simp⟩
    simp [consumeHealthPack, createChunk, emptyEnv, List.eraseIdx] at h5

/-- Well-formedness of the chunk store: distinct chunks never share mesh
ids (each chunk creates its own meshes), expressed pairwise for chunks with
distinct keys. -/
def ChunksDisjoint (e : Env) : Prop :=
  ∀ c1 ∈ e.chunks, ∀ c2 ∈ e.chunks, c1.key ≠ c2.key →
    (∀ m ∈ c1.obstacles, m ∉ c2.obstacles) ∧
    (∀ m ∈ c1.healthPacks, m ∉ c2.healthPacks) ∧
    (∀ m ∈ c1.ammoPacks, m ∉ c2.ammoPacks)

/-- Chunk keys are unique (the source stores chunks in a `Map` keyed by the
grid coordinate). -/
def KeysNodup (e : Env) : Prop :=
  (e.chunks.map Chunk.key).Nodup

theorem createChunk_aggInv (e : Env) (c : Chunk) (h : AggInv e) :
    AggInv (createChunk e c) := by
  obtain ⟨ho, hh, ha⟩ := h
  refine ⟨?_, ?_, ?_⟩ <;> intro m <;>
    simp only [createChunk, List.mem_append, List.mem_singleton] <;>
    constructor
  · rintro (hm | hm)
    · obtain ⟨c2, hc2, hmc2⟩ := (ho m).mp hm
      exact ⟨c2, Or.inl hc2, hmc2⟩
    · exact ⟨c, Or.inr rfl, hm⟩
  · rintro ⟨c2, hc2 | rfl, hmc2⟩
    · exact Or.inl ((ho m).mpr ⟨c2, hc2, hmc2⟩)
    · exact Or.inr hmc2
  · rintro (hm | hm)
    · obtain ⟨c2, hc2, hmc2⟩ := (hh m).mp hm
      exact ⟨c2, Or.inl hc2, hmc2⟩
    · exact ⟨c, Or.inr rfl, hm⟩
  · rintro ⟨c2, hc2 | rfl, hmc2⟩
    · exact Or.inl ((hh m).mpr ⟨c2, hc2, hmc2⟩)
    · exact Or.inr hmc2
  · rintro (hm | hm)
    · obtain ⟨c2, hc2, hmc2⟩ := (ha m).mp hm
      exact ⟨c2, Or.inl hc2, hmc2⟩
    · exact ⟨c, Or.inr rfl, hm⟩
  · rintro ⟨c2, hc2 | rfl, hmc2⟩
    · exact Or.inl ((ha m).mpr ⟨c2, hc2, hmc2⟩)
    · exact Or.inr hmc2

theorem disposeChunk_aggInv (e : Env) (k : ℤ × ℤ) (h : AggInv e)
    (hd : ChunksDisjoint e) (hk : KeysNodup e) : AggInv (disposeChunk e k) := by
  obtain ⟨ho, hh, ha⟩ := h
  unfold disposeChunk
  cases hfind : e.chunks.find? (fun c => c.key == k) with
  | none => exact ⟨ho, hh, ha⟩
  | some c =>
      have hcmem : c ∈ e.chunks := List.mem_of_find?_eq_some hfind
      have hckey : c.key = k := by
        have := List.find?_some hfind
        simpa using this
      have huniq : ∀ c2 ∈ e.chunks, c2.key = k → c2 = c := by
        intro c2 hc2 hc2k
        exact List.inj_on_of_nodup_map hk hc2 hcmem (by rw [hc2k, hckey])
      have main : ∀ (get1 : Chunk → List ℕ) (agg : List ℕ),
          (∀ m, m ∈ agg ↔ ∃ c2 ∈ e.chunks, m ∈ get1 c2) →
          (∀ c1 ∈ e.chunks, ∀ c2 ∈ e.chunks, c1.key ≠ c2.key →
            ∀ m ∈ get1 c1, m ∉ get1 c2) →
          ∀ m, m ∈ agg.filter (fun x => !((get1 c).contains x)) ↔
            ∃ c2 ∈ e.chunks.filter (fun c2 => !(c2.key == k)), m ∈ get1 c2 := by
        intro get1 agg hagg hdis m
        constructor
        · intro hm
          rw [List.mem_filter] at hm
          obtain ⟨hm1, hm2⟩ := hm
          have hmc : m ∉ get1 c := by
            intro hx
            simp [List.elem_iff, hx] at hm2
          obtain ⟨c2, hc2, hmc2⟩ := (hagg m).mp hm1
          have hc2k : c2.key ≠ k := by
            intro hkk
            rw [huniq c2 hc2 hkk] at hmc2
            exact hmc hmc2
          refine ⟨c2, List.mem_filter.mpr ⟨hc2, ?_⟩, hmc2⟩
          simp [hc2k]
        · rintro ⟨c2, hc2f, hmc2⟩
          rw [List.mem_filter] at hc2f
          obtain ⟨hc2, hc2kb⟩ := hc2f
          have hc2k : c2.key ≠ k := by simpa using hc2kb
          rw [List.mem_filter]
          refine ⟨(hagg m).mpr ⟨c2, hc2, hmc2⟩, ?_⟩
          have hnc : m ∉ get1 c :=
            hdis c2 hc2 c hcmem (by rw [hckey]; exact fun hkk => hc2k hkk) m hmc2
          simp [List.elem_iff, hnc]
      exact ⟨main Chunk.obstacles e.obstacles ho (fun c1 h1 c2 h2 hne => (hd c1 h1 c2 h2 hne).1),
             main Chunk.healthPacks e.healthPacks hh (fun c1 h1 c2 h2 hne => (hd c1 h1 c2 h2 hne).2.1),
             main Chunk.ammoPacks e.ammoPacks ha (fun c1 h1 c2 h2 hne => (hd c1 h1 c2 h2 hne).2.2)⟩

theorem consumeHealthPack_breaks (e : Env) (i : ℕ) (h : AggInv e)
    (hnd : e.healthPacks.Nodup) (hi : i < e.healthPacks.length) :
    ¬ AggInv (consumeHealthPack e i) := by
  intro h2
  have hpmem : e.healthPacks[i] ∈ e.healthPacks := List.getElem_mem hi
  obtain ⟨c, hc, hpc⟩ := (h.2.1 _).mp hpmem
  have hafter : e.healthPacks[i] ∈ (consumeHealthPack e i).healthPacks :=
    (h2.2.1 _).mpr ⟨c, hc, hpc⟩
  simp only [consumeHealthPack, List.mem_eraseIdx_iff_getElem] at hafter
  obtain ⟨j, hj, hji, hgj⟩ := hafter
  exact hji ((List.Nodup.getElem_inj_iff hnd).mp hgj)

/-- C2 amended: the aggregate obstacle/health-pack/ammo-pack lists equal the
union of the per-chunk lists under chunk creation and disposal (assuming the
well-formedness of the source: unique chunk keys and per-chunk mesh ownership),
but consuming a pickup removes it ONLY from the aggregate list and not from
the list of the owning chunk, so the aggregate/union equality fails immediately
after a consumption (until the owning chunk is disposed). -/
theorem c2_amended :
    (∀ (e : Env) (c : Chunk), AggInv e → AggInv (createChunk e c)) ∧
    (∀ (e : Env) (k : ℤ × ℤ), AggInv e → ChunksDisjoint e → KeysNodup e →
      AggInv (disposeChunk e k)) ∧
    (∀ (e : Env) (i : ℕ), AggInv e → e.healthPacks.Nodup → i < e.healthPacks.length →
      (consumeHealthPack e i).chunks = e.chunks ∧ ¬ AggInv (consumeHealthPack e i)) := by
  exact ⟨createChunk_aggInv, disposeChunk_aggInv,
    fun e i h hnd hi => ⟨rfl, consumeHealthPack_breaks e i h hnd hi⟩⟩

/-- Witness for C2 amended at a concrete environment: one chunk owning
health pack 5, created into the empty environment. -/
theorem c2_amended_witness :
    AggInv (createChunk emptyEnv ⟨(0, 0), [], [5], []⟩) ∧
    AggInv (disposeChunk (createChunk emptyEnv ⟨(0, 0), [], [5], []⟩) (0, 0)) ∧
    ¬ AggInv (consumeHealthPack (createChunk emptyEnv ⟨(0, 0), [], [5], []⟩) 0) := by
  have hbase : AggInv emptyEnv := by
    refine ⟨?_, ?_, ?_⟩ <;> intro m <;> simp [emptyEnv]
  have h1 : AggInv (createChunk emptyEnv ⟨(0, 0), [], [5], []⟩) :=
    c2_amended.1 emptyEnv ⟨(0, 0), [], [5], []⟩ hbase
  refine ⟨h1, ?_, ?_⟩
  · refine c2_amended.2.1 _ (0, 0) h1 ?_ ?_
    · intro c1 hc1 c2 hc2 hne
      simp only [createChunk, emptyEnv, List.nil_append, List.mem_singleton] at hc1 hc2
      rw [hc1, hc2] at hne
      exact absurd rfl hne
    · simp [KeysNodup, createChunk, emptyEnv]
  · exact (c2_amended.2.2 _ 0 h1 (by simp [createChunk, emptyEnv]) (by simp [createChunk, emptyEnv])).2

/-- Boolean membership of a key in a key list, modelling the `Set.has` test
of `Environment.update` on `activeKeys`. -/
def listHas : List (ℤ × ℤ) → ℤ × ℤ → Bool
  | [], _ => false
  | x :: xs, k => x == k || listHas xs k

theorem listHas_iff_mem (l : List (ℤ × ℤ)) (k : ℤ × ℤ) : listHas l k = true ↔ k ∈ l := by
  induction l with
  | nil => simp [listHas]
  | cons x xs ih =>
      simp only [listHas, Bool.or_eq_true, ih, List.mem_cons, beq_iff_eq]
      constructor
      · rintro (rfl | h)
        · exact Or.inl rfl
        · exact Or.inr h
      · rintro (rfl | h)
        · exact Or.inl rfl
        · exact Or.inr h

/-- The `Map.has` test of `Environment.update` on the chunk store. -/
def hasChunkKey (e : Env) (k : ℤ × ℤ) : Bool :=
  e.chunks.any (fun c => c.key == k)

theorem hasChunkKey_iff (e : Env) (k : ℤ × ℤ) :
    hasChunkKey e k = true ↔ ∃ c ∈ e.chunks, c.key = k := by
  simp [hasChunkKey, List.any_eq_true, beq_iff_eq]

/-- Chunk side length, `chunkSize = 60`. -/
def chunkSize : ℚ := 60

/-- The chunk coordinate of the focus position:
`(Math.round(x / chunkSize), Math.round(z / chunkSize))`.  `Math.round`
rounds half-up, exactly as the Mathlib `round`. -/
def chunkCenter (pos : ℚ × ℚ) : ℤ × ℤ :=
  (round (pos.1 / chunkSize), round (pos.2 / chunkSize))

/-- The active key neighbourhood of `Environment.update`: the double loop
`for x in [cx - 2, cx + 2], for z in [cz - 2, cz + 2]` (`loadDistance = 2`,
a 5×5 Chebyshev square). -/
def activeKeysList (c : ℤ × ℤ) : List (ℤ × ℤ) :=
  (List.range 5).flatMap (fun dx => (List.range 5).map (fun dz => (c.1 - 2 + dx, c.2 - 2 + dz)))

/-- Build the chunk for a missing key from the (randomised) generator
outcome: the `new Chunk(...)` call of `Environment.createChunk`. -/
def genChunk (gen : ℤ × ℤ → List ℕ × List ℕ × List ℕ) (k : ℤ × ℤ) : Chunk :=
  ⟨k, (gen k).1, (gen k).2.1, (gen k).2.2⟩

/-- The keys `Environment.update` creates this call: active keys not yet in
the chunk store. -/
def toCreateList (e : Env) (pos : ℚ × ℚ) : List (ℤ × ℤ) :=
  (activeKeysList (chunkCenter pos)).filter (fun k => !(hasChunkKey e k))

/-- The creation loop of `Environment.update`. -/
def updCreate (e : Env) (pos : ℚ × ℚ) (gen : ℤ × ℤ → List ℕ × List ℕ × List ℕ) : Env :=
  (toCreateList e pos).foldl (fun acc k => createChunk acc (genChunk gen k)) e

/-- The keys `Environment.update` disposes this call: keys of stored chunks
(after the creation loop) outside the active set. -/
def toDisposeList (e : Env) (pos : ℚ × ℚ) : List (ℤ × ℤ) :=
  (e.chunks.filter (fun c => !(listHas (activeKeysList (chunkCenter pos)) c.key))).map Chunk.key

/-- The disposal loop of `Environment.update`. -/
def updDispose (e : Env) (pos : ℚ × ℚ) : Env :=
  (toDisposeList e pos).foldl disposeChunk e

/-- Source `Environment.update(playerPos)`: create all missing chunks in the 5×5
active square, then dispose every stored chunk outside it.  Returns the new
environment together with the lists of created and disposed keys (so that
"no creation/disposal happened" is observable). -/
def envUpdate (e : Env) (pos : ℚ × ℚ) (gen : ℤ × ℤ → List ℕ × List ℕ × List ℕ) :
    Env × List (ℤ × ℤ) × List (ℤ × ℤ) :=
  (updDispose (updCreate e pos gen) pos, toCreateList e pos,
    toDisposeList (updCreate e pos gen) pos)

theorem updCreate_chunks (e : Env) (pos : ℚ × ℚ) (gen : ℤ × ℤ → List ℕ × List ℕ × List ℕ) :
    (updCreate e pos gen).chunks = e.chunks ++ (toCreateList e pos).map (genChunk gen) := by
  rw [updCreate]
  generalize toCreateList e pos = ks
  induction ks generalizing e with
  | nil => simp
  | cons k rest ih =>
      rw [List.foldl_cons, ih, List.map_cons]
      simp [createChunk]

theorem disposeChunk_chunks (a : Env) (d : ℤ × ℤ) :
    (disposeChunk a d).chunks = a.chunks.filter (fun c => !(c.key == d)) := by
  unfold disposeChunk
  cases hfind : a.chunks.find? (fun c => c.key == d) with
  | none =>
      have hall := List.find?_eq_none.mp hfind
      exact (List.filter_eq_self.mpr (fun c hc => by
        simpa using hall c hc)).symm
  | some c => rfl

theorem foldDispose_chunks (ds : List (ℤ × ℤ)) (a : Env) :
    (ds.foldl disposeChunk a).chunks = a.chunks.filter (fun c => !(listHas ds c.key)) := by
  induction ds generalizing a with
  | nil => simp [listHas]
  | cons d rest ih =>
      rw [List.foldl_cons, ih, disposeChunk_chunks, List.filter_filter]
      apply List.filter_congr
      intro c _
      have hcomm : (d == c.key) = (c.key == d) := by
        cases hb : c.key == d
        · simp only [beq_eq_false_iff_ne, ne_eq] at hb ⊢
          exact fun h => hb h.symm
        · simp only [beq_iff_eq] at hb ⊢
          exact hb.symm
      simp only [listHas, hcomm]
      cases c.key == d <;> cases listHas rest c.key <;> rfl

theorem envUpdate_stable (e2 : Env) (pos : ℚ × ℚ)
    (gen2 : ℤ × ℤ → List ℕ × List ℕ × List ℕ)
    (hB : ∀ k ∈ activeKeysList (chunkCenter pos), hasChunkKey e2 k = true)
    (hA : ∀ c ∈ e2.chunks, listHas (activeKeysList (chunkCenter pos)) c.key = true) :
    envUpdate e2 pos gen2 = (e2, [], []) := by
  have h1 : toCreateList e2 pos = [] := by
    rw [toCreateList, List.filter_eq_nil_iff]
    intro k hk
    simp [hB k hk]
  have h2 : updCreate e2 pos gen2 = e2 := by
    rw [updCreate, h1]
    rfl
  have h3 : toDisposeList e2 pos = [] := by
    rw [toDisposeList, List.filter_eq_nil_iff.mpr (fun c hc => by simp [hA c hc])]
    rfl
  rw [envUpdate, h2, h3, h1, updDispose, h3]
  rfl

/-- C7: the world-streamer update is idempotent in the chunk set — for every
environment and focus position, a second `Environment.update` with the same
focus creates no chunk and disposes no chunk (both returned key lists are
empty) and leaves the environment exactly as the first call left it, in
particular with the same set of live chunk coordinates.  The generator
argument of the second call is irrelevant since nothing is created. -/
theorem c7_idempotent (e : Env) (pos : ℚ × ℚ)
    (gen gen2 : ℤ × ℤ → List ℕ × List ℕ × List ℕ) :
    envUpdate (envUpdate e pos gen).1 pos gen2 = ((envUpdate e pos gen).1, [], []) := by
  apply envUpdate_stable
  · intro k hk
    have he1 : ∃ c ∈ (updCreate e pos gen).chunks, c.key = k := by
      cases hhk : hasChunkKey e k with
      | true =>
          obtain ⟨c, hc, hck⟩ := (hasChunkKey_iff e k).mp hhk
          exact ⟨c, by rw [updCreate_chunks]; exact List.mem_append_left _ hc, hck⟩
      | false =>
          refine ⟨genChunk gen k, ?_, rfl⟩
          rw [updCreate_chunks]
          refine List.mem_append_right _ (List.mem_map_of_mem _ ?_)
          rw [toCreateList, List.mem_filter]
          exact ⟨hk, by simp [hhk]⟩
    obtain ⟨c, hc, hck⟩ := he1
    rw [hasChunkKey_iff]
    refine ⟨c, ?_, hck⟩
    rw [envUpdate, updDispose, foldDispose_chunks, List.mem_filter]
    refine ⟨hc, ?_⟩
    cases hld : listHas (toDisposeList (updCreate e pos gen) pos) c.key with
    | false => rfl
    | true =>
        exfalso
        have hmem := (listHas_iff_mem _ _).mp hld
        rw [toDisposeList, List.mem_map] at hmem
        obtain ⟨c2, hc2, hc2k⟩ := hmem
        rw [List.mem_filter] at hc2
        have hfalse : listHas (activeKeysList (chunkCenter pos)) c2.key = false := by
          simpa using hc2.2
        rw [hc2k, hck] at hfalse
        exact absurd ((listHas_iff_mem _ _).mpr hk) (by simp [hfalse])
  · intro c hc
    rw [envUpdate, updDispose, foldDispose_chunks, List.mem_filter] at hc
    obtain ⟨hc1, hnd⟩ := hc
    cases hka : listHas (activeKeysList (chunkCenter pos)) c.key with
    | true => rfl
    | false =>
        exfalso
        have hmem : c.key ∈ toDisposeList (updCreate e pos gen) pos := by
          rw [toDisposeList, List.mem_map]
          exact ⟨c, List.mem_filter.mpr ⟨hc1, by simp [hka]⟩, rfl⟩
        have hhl := (listHas_iff_mem _ _).mpr hmem
        simp [hhl] at hnd

/-- Spawner state of `ZombieManager`: the accumulating timer, the current
spawn interval, and the live hostile count (`zombies.length`). -/
structure ZMState where
  spawnTimer : ℚ
  spawnInterval : ℚ
  zombieCount : ℕ
deriving DecidableEq

/-- Population cap, `maxZombies = 100`. -/
def maxZombies : ℕ := 100

/-- The spawn block of `ZombieManager.update`: accumulate `dt`; when the
timer exceeds the current interval and the count is below the cap, attempt
a spawn (`spawnZombie`; `placementOk` abstracts whether the placement probe
produced a hostile), reset the timer to 0 and decay the interval to
`max(0.5, interval * 0.99)`.  Returns the new state and whether a spawn was
attempted. -/
def zmTick (s : ZMState) (dt : ℚ) (placementOk : Bool) : ZMState × Bool :=
  let timer := s.spawnTimer + dt
  if timer > s.spawnInterval ∧ s.zombieCount < maxZombies then
    ({ spawnTimer := 0,
       spawnInterval := max (1 / 2) (s.spawnInterval * (99 / 100)),
       zombieCount := s.zombieCount + (if placementOk then 1 else 0) }, true)
  else ({ s with spawnTimer := timer }, false)

/-- C5: a spawn is attempted exactly when the accumulated timer exceeds the
current spawn interval and the live hostile count is below the population
cap; whenever a spawn is attempted — even if placement fails and no hostile
is created — the timer resets to 0 and the interval becomes
`max(0.5, interval * 0.99)`, which never drops below the 0.5 floor; when no
spawn is attempted the timer keeps accumulating and the interval is
unchanged. -/
theorem c5_spawner :
    ∀ (s : ZMState) (dt : ℚ) (ok : Bool),
    ((zmTick s dt ok).2 = true ↔
        (s.spawnTimer + dt > s.spawnInterval ∧ s.zombieCount < maxZombies)) ∧
    ((zmTick s dt ok).2 = true →
        (zmTick s dt ok).1.spawnTimer = 0 ∧
        (zmTick s dt ok).1.spawnInterval = max (1 / 2) (s.spawnInterval * (99 / 100)) ∧
        (1 : ℚ) / 2 ≤ (zmTick s dt ok).1.spawnInterval) ∧
    ((zmTick s dt ok).2 = true → ok = false →
        (zmTick s dt ok).1.zombieCount = s.zombieCount) ∧
    ((zmTick s dt ok).2 = true → ok = true →
        (zmTick s dt ok).1.zombieCount = s.zombieCount + 1) ∧
    ((zmTick s dt ok).2 = false →
        (zmTick s dt ok).1.spawnTimer = s.spawnTimer + dt ∧
        (zmTick s dt ok).1.spawnInterval = s.spawnInterval) := by
  intro s dt ok
  unfold zmTick
  by_cases hc : s.spawnTimer + dt > s.spawnInterval ∧ s.zombieCount < maxZombies
  · rw [if_pos hc]
    refine ⟨by simpa using hc, ?_, ?_, ?_, ?_⟩
    · intro _
      exact ⟨rfl, rfl, le_max_left _ _⟩
    · intro _ hok
      simp [hok]
    · intro _ hok
      simp [hok]
    · intro hfalse
      exact absurd hfalse (by simp)
  · rw [if_neg hc]
    refine ⟨by simpa using hc, ?_, ?_, ?_, ?_⟩
    · intro htrue
      exact absurd htrue (by simp)
    · intro htrue
      exact absurd htrue (by simp)
    · intro htrue
      exact absurd htrue (by simp)
    · intro _
      exact ⟨rfl, rfl⟩

/-- Witness for C5 at a concrete state: timer 3 + dt 1 exceeds interval 5/2
with 0 hostiles, so a spawn is attempted; the timer resets, the interval
decays to `max(1/2, 99/40) = 99/40 ≥ 1/2`, and a failed placement leaves
the count unchanged. -/
theorem c5_spawner_witness :
    (zmTick ⟨3, 5 / 2, 0⟩ 1 false).2 = true ∧
    (zmTick ⟨3, 5 / 2, 0⟩ 1 false).1.spawnTimer = 0 ∧
    (1 : ℚ) / 2 ≤ (zmTick ⟨3, 5 / 2, 0⟩ 1 false).1.spawnInterval ∧
    (zmTick ⟨3, 5 / 2, 0⟩ 1 false).1.zombieCount = 0 := by
  have hatt : (zmTick ⟨3, 5 / 2, 0⟩ 1 false).2 = true :=
    ((c5_spawner ⟨3, 5 / 2, 0⟩ 1 false).1).mpr (by constructor <;> norm_num [maxZombies])
  have h2 := (c5_spawner ⟨3, 5 / 2, 0⟩ 1 false).2.1 hatt
  have h3 := (c5_spawner ⟨3, 5 / 2, 0⟩ 1 false).2.2.1 hatt rfl
  exact ⟨hatt, h2.1, h2.2.2, h3⟩

/-- A mesh the downward spawn probe can intersect: a ground patch of the
streamed world, or an obstacle. -/
inductive SpawnMesh where
  | groundMesh (i : ℕ)
  | obstacleMesh (i : ℕ)
deriving DecidableEq

/-- The environment surface consulted by `ZombieManager.spawnZombie`: the
value of the `environment.ground` property and the obstacle list.  The
chunked `Environment` class in the source declares NO `ground` member
(only `getGroundMeshes()`), so in the shipped game reading
`this.environment.ground` yields `undefined`, modelled as `none`; the
older single-ground environment exposed `public ground`, modelled as
`some mesh`. -/
structure SpawnEnv where
  groundField : Option SpawnMesh
  obstacles : List SpawnMesh

/-- The `pickWithRay` predicate of `spawnZombie`:
`mesh === this.environment.ground || this.environment.obstacles.includes(mesh)`
(JavaScript `===` against `undefined` is false for every mesh). -/
def spawnPredicate (env : SpawnEnv) (m : SpawnMesh) : Bool :=
  (some m == env.groundField) || env.obstacles.contains m

/-- Babylon `scene.pickWithRay(ray, predicate)`: among the meshes the downward ray
geometrically intersects (listed nearest-first), return the first one
satisfying the predicate, or `none` when none does. -/
def pickWithRay (env : SpawnEnv) (rayMeshes : List SpawnMesh) : Option SpawnMesh :=
  rayMeshes.find? (spawnPredicate env)

/-- The validity test of one spawn attempt:
`hit && hit.hit && hit.pickedMesh === this.environment.ground`. -/
def attemptValid (env : SpawnEnv) (rayMeshes : List SpawnMesh) : Bool :=
  match pickWithRay env rayMeshes with
  | some picked => some picked == env.groundField
  | none => false

/-- Source `ZombieManager.spawnZombie`: up to 10 random placement attempts (the
list of attempts, each given by the meshes its probe ray intersects); a
hostile is created iff some attempt validates (the first valid attempt
wins; for the spawned/not-spawned outcome, `any` suffices). -/
def spawnZombie (env : SpawnEnv) (attempts : List (List SpawnMesh)) : Bool :=
  attempts.any (attemptValid env)

/-- C4 (code bug): in the shipped chunked environment, `environment.ground`
is `undefined`, so NO spawn attempt ever validates and no hostile ever
spawns — even for a probe that lands squarely on a ground mesh of the
active world (the concrete failing input `[[groundMesh 0]]`).  The same
validity check does validate such a probe under the old single-ground
environment (`groundField = some (groundMesh 0)`), confirming it was
written against the removed `Environment.ground` API. -/
theorem c4_spawn_never_validates :
    (∀ (obstacles : List SpawnMesh) (attempts : List (List SpawnMesh)),
      spawnZombie ⟨none, obstacles⟩ attempts = false) ∧
    spawnZombie ⟨none, []⟩ [[SpawnMesh.groundMesh 0]] = false ∧
    spawnZombie ⟨some (SpawnMesh.groundMesh 0), []⟩ [[SpawnMesh.groundMesh 0]] = true := by
  refine ⟨?_, ?_, ?_⟩
  · intro obstacles attempts
    rw [spawnZombie, List.any_eq_false]
    intro rm _
    rw [attemptValid]
    cases pickWithRay ⟨none, obstacles⟩ rm with
    | none => exact Bool.false_ne_true
    | some picked => exact Bool.false_ne_true
  · rfl
  · rfl

/-- Per-control layout record (`ControlLayout` in the source): pixel offsets
and size. -/
structure ControlLayout where
  leftPx : ℚ
  topPx : ℚ
  widthPx : ℚ
  heightPx : ℚ
deriving DecidableEq

/-- The full on-screen control layout (`FullLayout`): one record per
control. -/
structure FullLayout where
  leftStick : ControlLayout
  rightStick : ControlLayout
  shoot : ControlLayout
  jump : ControlLayout
  reload : ControlLayout
  sprint : ControlLayout
  pause : ControlLayout
deriving DecidableEq

/-- The `defaultLayout()` values of the source. -/
def defaultFullLayout : FullLayout :=
  { leftStick := ⟨30, -30, 150, 150⟩,
    rightStick := ⟨-30, -30, 150, 150⟩,
    shoot := ⟨-210, -40, 80, 80⟩,
    jump := ⟨-300, -120, 70, 70⟩,
    reload := ⟨-210, -140, 60, 60⟩,
    sprint := ⟨30, -200, 70, 70⟩,
    pause := ⟨-20, 20, 50, 50⟩ }

/-- JSON values, as produced by `JSON.parse` (numbers as exact rationals:
`JSON.stringify`/`JSON.parse` round-trips the finite doubles stored here
exactly). -/
inductive Json where
  | obj (fields : List (String × Json))
  | arr (elems : List Json)
  | num (q : ℚ)
  | str (s : String)
  | bool (b : Bool)
  | null

/-- First field with the given name, modelling JavaScript property read. -/
def lookupField : List (String × Json) → String → Option Json
  | [], _ => none
  | (k, v) :: rest, key => if k == key then some v else lookupField rest key

/-- Encoding by `JSON.stringify` of one control record (as the value it parses back
to). -/
def encodeControl (c : ControlLayout) : Json :=
  .obj [("leftPx", .num c.leftPx), ("topPx", .num c.topPx),
        ("widthPx", .num c.widthPx), ("heightPx", .num c.heightPx)]

/-- Encoding by `JSON.stringify` of the full layout (as the value it parses back to). -/
def encodeFull (l : FullLayout) : Json :=
  .obj [("leftStick", encodeControl l.leftStick), ("rightStick", encodeControl l.rightStick),
        ("shoot", encodeControl l.shoot), ("jump", encodeControl l.jump),
        ("reload", encodeControl l.reload), ("sprint", encodeControl l.sprint),
        ("pause", encodeControl l.pause)]

/-- Read a numeric field. -/
def asNum : Option Json → Option ℚ
  | some (.num q) => some q
  | _ => none

/-- Recover a `ControlLayout` from a JSON value (how the parsed record is
consumed as a `ControlLayout` by `applyLayout`). -/
def decodeControl : Json → Option ControlLayout
  | .obj fs =>
      match asNum (lookupField fs "leftPx"), asNum (lookupField fs "topPx"),
            asNum (lookupField fs "widthPx"), asNum (lookupField fs "heightPx") with
      | some a, some b, some c, some d => some ⟨a, b, c, d⟩
      | _, _, _, _ => none
  | _ => none

/-- Recover a `FullLayout` from a JSON value. -/
def decodeFull : Json → Option FullLayout
  | .obj fs =>
      match (lookupField fs "leftStick").bind decodeControl,
            (lookupField fs "rightStick").bind decodeControl,
            (lookupField fs "shoot").bind decodeControl,
            (lookupField fs "jump").bind decodeControl,
            (lookupField fs "reload").bind decodeControl,
            (lookupField fs "sprint").bind decodeControl,
            (lookupField fs "pause").bind decodeControl with
      | some c1, some c2, some c3, some c4, some c5, some c6, some c7 =>
          some ⟨c1, c2, c3, c4, c5, c6, c7⟩
      | _, _, _, _, _, _, _ => none
  | _ => none

/-- The default layout as the JSON value `loadLayout` returns on fallback
(the source returns `defaultLayout()` itself; encoding it keeps a single
return type for the model). -/
def defaultLayoutJson : Json := encodeFull defaultFullLayout

/-- What `localStorage.getItem` + `JSON.parse` can yield for the stored
record: no stored value (null/empty), a string `JSON.parse` throws on, or a
string parsing to a JSON value. -/
inductive StoredRaw where
  | absent
  | malformed
  | json (v : Json)

/-- Source `Object.keys(defaultLayout())`, in declaration order — the keys the
completeness check requires. -/
def requiredKeys : List String :=
  ["leftStick", "rightStick", "shoot", "jump", "reload", "sprint", "pause"]

/-- The JavaScript `key in parsed` test: property lookup on objects (and
arrays, where none of the required names is ever a key), a thrown
`TypeError` on primitives and `null`. -/
def keyInJs (k : String) : Json → Except Unit Bool
  | .obj fs => .ok (fs.any (fun f => f.1 == k))
  | .arr _ => .ok false
  | _ => .error ()

/-- The completeness loop of `loadLayout`:
`for key of Object.keys(def) { if (!(key in parsed)) return def; } return parsed;`
with thrown exceptions propagated. -/
def checkKeysGo : List String → Json → Except Unit Json
  | [], v => .ok v
  | k :: ks, v =>
      match keyInJs k v with
      | .error e => .error e
      | .ok true => checkKeysGo ks v
      | .ok false => .ok defaultLayoutJson

/-- The body of `MobileControlsManager.loadLayout` inside the `try`:
null/empty raw falls through to the default; `JSON.parse` throws on a
malformed string; otherwise the completeness check runs on the parsed
value. -/
def loadLayoutBody : StoredRaw → Except Unit Json
  | .absent => .ok defaultLayoutJson
  | .malformed => .error ()
  | .json v => checkKeysGo requiredKeys v

/-- Source `MobileControlsManager.loadLayout`: the `try`/`catch` wrapper — every
thrown exception is swallowed and the default layout returned. -/
def loadLayout (s : StoredRaw) : Json :=
  match loadLayoutBody s with
  | .ok v => v
  | .error _ => defaultLayoutJson

/-- Source `MobileControlsManager.saveLayout`: store `JSON.stringify(this.layout)`. -/
def saveLayout (l : FullLayout) : StoredRaw := .json (encodeFull l)

/-- The boolean outcome of the `key in parsed` test (false when the test
would throw). -/
def keyFlag (k : String) (v : Json) : Bool :=
  match keyInJs k v with
  | .ok b => b
  | .error _ => false

/-- All required keys present. -/
def hasAllKeys (v : Json) : Bool := requiredKeys.all (fun k => keyFlag k v)

theorem checkKeysGo_obj_missing (ks : List String) (fs : List (String × Json))
    (h : ks.all (fun k => keyFlag k (.obj fs)) = false) :
    checkKeysGo ks (.obj fs) = .ok defaultLayoutJson := by
  induction ks with
  | nil => simp at h
  | cons k rest ih =>
      have hscrut : keyInJs k (Json.obj fs) = .ok (keyFlag k (Json.obj fs)) := rfl
      simp only [checkKeysGo, hscrut]
      cases hb : keyFlag k (Json.obj fs) with
      | false => rfl
      | true =>
          have hrest : rest.all (fun k => keyFlag k (Json.obj fs)) = false := by
            rw [List.all_cons, hb] at h
            simpa using h
          exact ih hrest

theorem checkKeysGo_cases (ks : List String) (v : Json) :
    checkKeysGo ks v = .ok defaultLayoutJson ∨ checkKeysGo ks v = .error () ∨
      (checkKeysGo ks v = .ok v ∧ ks.all (fun k => keyFlag k v) = true) := by
  induction ks with
  | nil => exact Or.inr (Or.inr ⟨rfl, rfl⟩)
  | cons k rest ih =>
      cases hkj : keyInJs k v with
      | error e =>
          simp only [checkKeysGo, hkj]
          cases e
          exact Or.inr (Or.inl trivial)
      | ok b =>
          cases b with
          | false =>
              simp only [checkKeysGo, hkj]
              exact Or.inl trivial
          | true =>
              simp only [checkKeysGo, hkj]
              rcases ih with h | h | ⟨h1, h2⟩
              · exact Or.inl h
              · exact Or.inr (Or.inl h)
              · refine Or.inr (Or.inr ⟨h1, ?_⟩)
                rw [List.all_cons, h2]
                have hk : keyFlag k v = true := by
                  simp only [keyFlag, hkj]
                simp [hk]

/-- C8: the control-layout persistence round-trips — for every layout,
saving and then loading reproduces the identical per-control pixel offsets
and sizes — and loading a stored record that is missing any required
control key yields exactly the default layout. -/
theorem c8_layout_roundtrip :
    (∀ l : FullLayout, loadLayout (saveLayout l) = encodeFull l ∧
      decodeFull (encodeFull l) = some l) ∧
    (∀ fs : List (String × Json),
      (∃ k ∈ requiredKeys, keyFlag k (Json.obj fs) = false) →
      loadLayout (.json (.obj fs)) = defaultLayoutJson) ∧
    decodeFull defaultLayoutJson = some defaultFullLayout := by
  refine ⟨?_, ?_, rfl⟩
  · intro l
    exact ⟨rfl, rfl⟩
  · intro fs hmiss
    have hall : requiredKeys.all (fun k => keyFlag k (Json.obj fs)) = false := by
      obtain ⟨k, hk, hkf⟩ := hmiss
      rw [List.all_eq_false]
      exact ⟨k, hk, by simp [hkf]⟩
    have hchk := checkKeysGo_obj_missing requiredKeys fs hall
    simp only [loadLayout, loadLayoutBody, hchk]

/-- Witness for C8: the default layout round-trips concretely, and loading
the empty object (missing every key) yields the default layout. -/
theorem c8_layout_roundtrip_witness :
    decodeFull (loadLayout (saveLayout defaultFullLayout)) = some defaultFullLayout ∧
    keyFlag "leftStick" (Json.obj []) = false ∧
    loadLayout (.json (.obj [])) = defaultLayoutJson := by
  refine ⟨?_, rfl, c8_layout_roundtrip.2.1 [] ⟨"leftStick", by simp [requiredKeys], rfl⟩⟩
  have h := c8_layout_roundtrip.1 defaultFullLayout
  rw [h.1, h.2]

/-- C10: loading the persisted control layout is total — for every stored
value (absent, syntactically malformed, a non-object, or any JSON value)
`loadLayout` returns a value (every JavaScript exception is caught), and it
returns the default layout in every case except a parsed value that passes
the key-completeness check, which is returned as-is. -/
theorem c10_load_total (s : StoredRaw) :
    loadLayout s = defaultLayoutJson ∨
      ∃ v, s = .json v ∧ hasAllKeys v = true ∧ loadLayout s = v := by
  cases s with
  | absent => exact Or.inl rfl
  | malformed => exact Or.inl rfl
  | json v =>
      rcases checkKeysGo_cases requiredKeys v with h | h | ⟨h1, h2⟩
      · exact Or.inl (by simp only [loadLayout, loadLayoutBody, h])
      · exact Or.inl (by simp only [loadLayout, loadLayoutBody, h])
      · exact Or.inr ⟨v, rfl, h2, by simp only [loadLayout, loadLayoutBody, h1]⟩
